import Mathlib

/-!
Verification of the PrashnAi quiz application core (src/app.py and
src/app_simple.py): the text-to-question parsing engine (regex
`QA_BLOCK_RE`, `clean_text`, `normalize_stem`, `parse_quiz_text`), the
question-set builder (dedupe, sort, cap, `get_random_questions`), and the
session callbacks (`main_update`, `handle_actions`, `display_question`,
`reveal_answer`).

Strings are modelled as `List Char` (ASCII fragment; Python `\s` and `\d`
are modelled by their ASCII meaning, which covers all inputs considered
here).  The Python regular expressions are embedded as deterministic
backtracking matchers that follow the engine's strategy for this concrete
pattern: greedy `\s*` (longest first), lazy `(.*?)` (shortest first),
first-success ordering.
-/

namespace PrashnAi

/-- Python `\s` on ASCII: space, tab, newline, carriage return, vertical
tab, form feed. -/
def isPySpace (c : Char) : Bool :=
  c = ' ' || c = '\t' || c = '\n' || c = '\r' || c = '\x0b' || c = '\x0c'

/-- Greedy `\s*` when followed by a non-space literal: drop leading
whitespace. -/
def skipWs (l : List Char) : List Char := l.dropWhile isPySpace

/-- `re.sub(r"\s+", " ", s)`: every maximal run of whitespace becomes one
space. -/
def collapseWs : List Char → List Char
  | [] => []
  | [c] => if isPySpace c then [' '] else [c]
  | c :: d :: rest =>
    if isPySpace c then
      if isPySpace d then collapseWs (d :: rest)
      else ' ' :: collapseWs (d :: rest)
    else c :: collapseWs (d :: rest)

/-- Python `str.strip()`: drop whitespace from both ends. -/
def stripEnds (l : List Char) : List Char :=
  ((l.dropWhile isPySpace).reverse.dropWhile isPySpace).reverse

/-- `clean_text` from app.py / app_simple.py:
`re.sub(r"\s+", " ", s).strip()`. -/
def clean_text (l : List Char) : List Char := stripEnds (collapseWs l)

/-- Case-insensitive literal prefix test (`re.IGNORECASE` on a letter
sequence); the pattern chars are given lowercase. -/
def ciPrefix : List Char → List Char → Bool
  | [], _ => true
  | _ :: _, [] => false
  | p :: ps, c :: cs => if c.toLower = p then ciPrefix ps cs else false

/-- One attempt of the pattern `\(variant[^\)]*\)` (IGNORECASE) anchored at
the head of `l`; on success returns the remainder after the closing
parenthesis. -/
def variantAt (l : List Char) : Option (List Char) :=
  match l with
  | '(' :: r =>
    if ciPrefix ['v', 'a', 'r', 'i', 'a', 'n', 't'] r then
      match (r.drop 7).dropWhile (fun c => ¬ (c = ')')) with
      | ')' :: r2 => some r2
      | _ => none
    else none
  | _ => none

/-- `re.sub(r"\(variant[^\)]*\)", "", stem, flags=re.IGNORECASE)`:
left-to-right, non-overlapping removal.  Fuel-indexed (fuel ≥ length is
always sufficient: each removal consumes at least one character). -/
def removeVariantAux : Nat → List Char → List Char
  | 0, l => l
  | _ + 1, [] => []
  | fuel + 1, c :: rest =>
    match variantAt (c :: rest) with
    | some r => removeVariantAux fuel r
    | none => c :: removeVariantAux fuel rest

/-- `normalize_stem`'s first step. -/
def removeVariant (l : List Char) : List Char := removeVariantAux l.length l

/-- `normalize_stem` from app.py / app_simple.py. -/
def normalize_stem (l : List Char) : List Char := clean_text (removeVariant l)

/-! ### The `QA_BLOCK_RE` matcher

app.py:
`(?ms)^Q\s*(\d+)\s*:\s*(.*?)\n\s*A\)\s*(.*?)\n\s*B\)\s*(.*?)\n\s*C\)\s*(.*?)\n\s*D\)\s*(.*?)\n\s*Answer\s*:\s*([ABCD])\s*$`

app_simple.py:
`(?ms)^(?:Q\s*)?(\d+)\s*(?::|\.)\s*(.*?)\n ...` (same tail).

The two dialects are captured by the flags `reqQ` (app.py: `Q` mandatory)
and `allowDot` (app_simple: `.` allowed as separator besides `:`).
-/

/-- The groups of one `QA_BLOCK_RE` match, before cleaning. -/
structure RawBlock where
  digits : List Char
  stemRaw : List Char
  aRaw : List Char
  bRaw : List Char
  cRaw : List Char
  dRaw : List Char
  ansc : Char
deriving DecidableEq

/-- Lazy `(.*?)` (DOTALL) followed by continuation `k`: shortest prefix
whose remainder satisfies `k`. -/
def lazySplit (k : List Char → Option α) : List Char → Option (List Char × α)
  | [] =>
    match k [] with
    | some a => some ([], a)
    | none => none
  | c :: rest =>
    match k (c :: rest) with
    | some a => some ([], a)
    | none =>
      match lazySplit k rest with
      | some (p, a) => some (c :: p, a)
      | none => none

/-- Greedy `\s*` followed by lazy `(.*?)` followed by continuation `k`,
in the engine's backtracking order: longest whitespace prefix first, and
for each, shortest lazy part first.  Returns the lazy group and the
continuation's value. -/
def gwtl (k : List Char → Option α) : List Char → Option (List Char × α)
  | [] => lazySplit k []
  | c :: rest =>
    if isPySpace c then
      match gwtl k rest with
      | some r => some r
      | none => lazySplit k (c :: rest)
    else lazySplit k (c :: rest)

/-- Continuation `\n\s*<marker>` (marker a non-space literal such as
`A)`); returns the remainder after the marker. -/
def afterMarker (m : List Char) (l : List Char) : Option (List Char) :=
  match l with
  | '\n' :: r =>
    let r1 := skipWs r
    if m.isPrefixOf r1 then some (r1.drop m.length) else none
  | _ => none

/-- Trailing `\s*$` under `re.M`: greedy whitespace, then end of string or
a following newline; returns the remainder after the match end. -/
def wsDollar : List Char → Option (List Char)
  | [] => some []
  | c :: rest =>
    if isPySpace c then
      match wsDollar rest with
      | some r => some r
      | none => if c = '\n' then some (c :: rest) else none
    else none

/-- Continuation `\n\s*Answer\s*:\s*([ABCD])\s*$`; returns the matched
answer letter and the remainder after the match end. -/
def answerCont (l : List Char) : Option (Char × List Char) :=
  match l with
  | '\n' :: r =>
    let r1 := skipWs r
    if ['A', 'n', 's', 'w', 'e', 'r'].isPrefixOf r1 then
      match skipWs (r1.drop 6) with
      | ':' :: r3 =>
        match skipWs r3 with
        | c :: r5 =>
          if c = 'A' ∨ c = 'B' ∨ c = 'C' ∨ c = 'D' then
            match wsDollar r5 with
            | some rest => some (c, rest)
            | none => none
          else none
        | [] => none
      | _ => none
    else none
  | _ => none

/-- `^Q\s*` (app.py, `reqQ = true`) or `^(?:Q\s*)?` (app_simple,
`reqQ = false`).  When the optional `Q` is present the following `\d+`
must match after it (no backtracking into dropping the `Q`, since `Q` is
not a digit). -/
def afterQtok (reqQ : Bool) (l : List Char) : Option (List Char) :=
  match l with
  | 'Q' :: r => some (skipWs r)
  | _ => if reqQ then none else some l

/-- The numbering token `(\d+)\s*:` (resp. `(\d+)\s*(?::|\.)`), after the
optional `Q`; returns the digit group and the remainder after the
separator. -/
def matchNum (reqQ allowDot : Bool) (l : List Char) : Option (List Char × List Char) :=
  (afterQtok reqQ l).bind fun l2 =>
    let ds := l2.takeWhile Char.isDigit
    if ds = [] then none
    else
      match skipWs (l2.dropWhile Char.isDigit) with
      | ':' :: r => some (ds, r)
      | '.' :: r => if allowDot then some (ds, r) else none
      | _ => none

/-- One `QA_BLOCK_RE` match attempt anchored at the head of `l` (which the
caller guarantees to be a line start); returns the groups and the
remainder after the match end. -/
def matchBlockAt (reqQ allowDot : Bool) (l : List Char) : Option (RawBlock × List Char) :=
  (matchNum reqQ allowDot l).bind fun p1 =>
  (gwtl (afterMarker ['A', ')']) p1.2).bind fun p2 =>
  (gwtl (afterMarker ['B', ')']) p2.2).bind fun p3 =>
  (gwtl (afterMarker ['C', ')']) p3.2).bind fun p4 =>
  (gwtl (afterMarker ['D', ')']) p4.2).bind fun p5 =>
  (gwtl answerCont p5.2).bind fun p6 =>
  some (⟨p1.1, p2.1, p3.1, p4.1, p5.1, p6.1, p6.2.1⟩, p6.2.2)

/-- `QA_BLOCK_RE.finditer`: scan left to right; the `(?m)^` anchor admits
a match attempt only at the string start or just after a newline;
non-overlapping (continue after each match end).  Fuel-indexed
(`length + 1` is always sufficient). -/
def scanAux (reqQ allowDot : Bool) : Nat → List Char → Bool → List RawBlock
  | 0, _, _ => []
  | _ + 1, [], _ => []
  | fuel + 1, c :: rest, atLS =>
    if atLS then
      match matchBlockAt reqQ allowDot (c :: rest) with
      | some (b, r) => b :: scanAux reqQ allowDot fuel r false
      | none => scanAux reqQ allowDot fuel rest (c = '\n')
    else scanAux reqQ allowDot fuel rest (c = '\n')

/-- All `QA_BLOCK_RE` matches of a text. -/
def finditerBlocks (reqQ allowDot : Bool) (l : List Char) : List RawBlock :=
  scanAux reqQ allowDot (l.length + 1) l true

/-- `re.split` on the zero-width line-start lookahead used by the recovery
strategy: cut the text at every line start satisfying `pred`. -/
def splitQ (pred : List Char → Bool) : Nat → List Char → Bool → List Char → List (List Char)
  | 0, l, _, acc => [acc.reverse ++ l]
  | _ + 1, [], _, acc => [acc.reverse]
  | fuel + 1, c :: rest, atLS, acc =>
    if atLS && pred (c :: rest) then
      acc.reverse :: splitQ pred fuel rest (c = '\n') [c]
    else splitQ pred fuel rest (c = '\n') (c :: acc)

/-- `QA_BLOCK_RE.search` within a chunk: first match scanning left to
right (position 0 of the chunk counts as a line start). -/
def reSearch (reqQ allowDot : Bool) : Nat → List Char → Bool → Option RawBlock
  | 0, _, _ => none
  | _ + 1, [], _ => none
  | fuel + 1, c :: rest, atLS =>
    if atLS then
      match matchBlockAt reqQ allowDot (c :: rest) with
      | some (b, _) => some b
      | none => reSearch reqQ allowDot fuel rest (c = '\n')
    else reSearch reqQ allowDot fuel rest (c = '\n')

/-- The raw matches produced by `parse_quiz_text` before record
construction: primary `finditer` scan, and if it yields nothing, the
chunk-and-rescan recovery strategy (`re.split` on the question-start
lookahead, then `search` in each chunk, keeping at most one match per
chunk and silently dropping chunks with none). -/
def rawBlocks (reqQ allowDot : Bool) (text : List Char) : List RawBlock :=
  let blocks := finditerBlocks reqQ allowDot text
  if blocks = [] then
    (splitQ (fun l => (matchNum reqQ allowDot l).isSome) (text.length + 1) text true []).filterMap
      (fun ch => reSearch reqQ allowDot (ch.length + 1) ch true)
  else blocks

/-- The fixed options dict `{"A": ..., "B": ..., "C": ..., "D": ...}`. -/
structure Options4 where
  A : List Char
  B : List Char
  C : List Char
  D : List Char
deriving DecidableEq

/-- A parsed question dict. -/
structure Block where
  qnum : Nat
  stem : List Char
  stem_raw : List Char
  options : Options4
  answer : List Char
deriving DecidableEq

/-- Python `int` on a digit string. -/
def natOfDigits (ds : List Char) : Nat :=
  ds.foldl (fun n c => 10 * n + (c.toNat - 48)) 0

/-- Record construction from one match, as in `parse_quiz_text`:
`int(qnum)`, `normalize_stem`, `clean_text` on the raw fields,
`.upper()` on the answer letter. -/
def toBlock (rb : RawBlock) : Block :=
  { qnum := natOfDigits rb.digits
    stem := normalize_stem rb.stemRaw
    stem_raw := clean_text rb.stemRaw
    options := ⟨clean_text rb.aRaw, clean_text rb.bRaw, clean_text rb.cRaw, clean_text rb.dRaw⟩
    answer := [rb.ansc.toUpper] }

/-- The dedupe key `b["stem"].lower()`. -/
def keyOf (b : Block) : List Char := b.stem.map Char.toLower

/-- The dedupe loop of `parse_quiz_text`: `seen` set of keys, keep first
occurrence of each key. -/
def dedupeGo (seen : List (List Char)) : List Block → List Block
  | [] => []
  | b :: bs =>
    if keyOf b ∈ seen then dedupeGo seen bs
    else b :: dedupeGo (keyOf b :: seen) bs

/-- `if dedupe:` branch of `parse_quiz_text`. -/
def dedupeBlocks (bs : List Block) : List Block := dedupeGo [] bs

/-- The sort key comparison `lambda x: x.get("qnum", 0)`. -/
def blockLE (a b : Block) : Prop := a.qnum ≤ b.qnum

instance : DecidableRel blockLE := fun a b => Nat.decLe a.qnum b.qnum

instance : IsTotal Block blockLE := ⟨fun a b => Nat.le_total a.qnum b.qnum⟩

instance : IsTrans Block blockLE := ⟨fun _ _ _ => Nat.le_trans⟩

/-- `blocks.sort(key=lambda x: x.get("qnum", 0))`: stable ascending sort
by `qnum` (insertion sort is stable and agrees with Python's stable
sort). -/
def sortBlocks (bs : List Block) : List Block := bs.insertionSort blockLE

end PrashnAi

namespace PrashnAi.app

/-- `parse_quiz_text(text, dedupe=True)` from app.py: regex scan (with
recovery), optional dedupe, stable sort by `qnum`. -/
def parse_quiz_text (text : List Char) (dedupe : Bool) : List Block :=
  let blocks := (PrashnAi.rawBlocks true false text).map toBlock
  let blocks := if dedupe then dedupeBlocks blocks else blocks
  sortBlocks blocks

end PrashnAi.app

namespace PrashnAi.app_simple

/-- `parse_quiz_text(text, dedupe=True, max_questions=25)` from
app_simple.py: regex scan (with recovery), optional dedupe, stable sort
by `qnum`, then truncation to `max_questions`. -/
def parse_quiz_text (text : List Char) (dedupe : Bool) (max_questions : Nat) : List Block :=
  let blocks := (PrashnAi.rawBlocks false true text).map toBlock
  let blocks := if dedupe then dedupeBlocks blocks else blocks
  let blocks := sortBlocks blocks
  if max_questions < blocks.length then blocks.take max_questions else blocks

/-- `parse_quiz_text(text)` with its Python default arguments
(`dedupe=True`, `max_questions=25`). -/
def parse_quiz_text_default (text : List Char) : List Block :=
  parse_quiz_text text true 25

/-- `random.sample(xs, k)` (with `k ≤ len(xs)`) modelled with its
randomness injected as a list `σ` of indices (the order in which the
sampler picks positions): the result is the elements of `xs` at the
first `k` indices of `σ`.  When `σ` is a permutation of `range
(len xs)` this is a sample of `k` distinct elements. -/
def pySample (σ : List Nat) (xs : List Block) (k : Nat) : List Block :=
  (σ.take k).filterMap fun i => xs.get? i

/-- `get_random_questions(all_questions, count=25)` from app_simple.py:
return the whole list when it has at most `count` elements, otherwise a
random sample of exactly `count`. -/
def get_random_questions (σ : List Nat) (all_questions : List Block) (count : Nat) :
    List Block :=
  if all_questions.length ≤ count then all_questions
  else pySample σ all_questions count

end PrashnAi.app_simple

namespace PrashnAi

/-- Python list indexing `l[i]` with an `int` index: negative indices
count from the end; out of range is an `IndexError`, modelled as
`none`. -/
def pyGet (l : List α) (i : Int) : Option α :=
  if 0 ≤ i then l.get? i.toNat
  else if -i ≤ (l.length : Int) then l.get? (l.length - (-i).toNat)
  else none

/-- The buttons that can trigger app.py's `main_update`. -/
inductive Trig where
  | submitBtn
  | nextBtn
  | resetBtn
  | other
deriving DecidableEq

/-- One entry of app.py's `store-history`:
`{"idx": index, "q_idx": order[index], "chosen": chosen, "correct": is_correct}`. -/
structure PyEvent where
  idx : Int
  q_idx : Nat
  chosen : List Char
  correct : Bool
deriving DecidableEq

/-- Python truthiness of the radio value `chosen` (absent or empty string
is falsy). -/
def chosenFalsy (chosen : Option (List Char)) : Bool :=
  match chosen with
  | none => true
  | some [] => true
  | some (_ :: _) => false

/-- Dict lookup `options[label]` by answer label; a missing key would be a
`KeyError` (`none`). -/
def optLookup (o : Options4) (ans : List Char) : Option (List Char) :=
  if ans = ['A'] then some o.A
  else if ans = ['B'] then some o.B
  else if ans = ['C'] then some o.C
  else if ans = ['D'] then some o.D
  else none

end PrashnAi

namespace PrashnAi.app

/-- `main_update` from app.py, restricted to its state outputs
`(store-history, store-index)`.  `none` models an uncaught Python
exception (e.g. `IndexError`).  The submit branch guards only on a falsy
selection, empty questions/order and a missing index; it appends to
`history` unconditionally otherwise.  The next branch computes
`(index or 0) + 1`, uncapped.  The reset branch clears history and
index. -/
def main_update (trig : Trig) (history : List PyEvent) (index : Option Int)
    (questions : List Block) (order : List Nat) (chosen : Option (List Char)) :
    Option (List PyEvent × Option Int) :=
  match trig with
  | .submitBtn =>
    if chosenFalsy chosen || questions.isEmpty || order.isEmpty || index.isNone then
      some (history, index)
    else
      match index, chosen with
      | some i, some ch =>
        match pyGet order i with
        | none => none
        | some qi =>
          match questions.get? qi with
          | none => none
          | some q =>
            some (history ++ [⟨i, qi, ch, ch == q.answer⟩], some i)
      | _, _ => none
  | .nextBtn =>
    some (history, some ((match index with
      | none => 0
      | some i => if i = 0 then 0 else i) + 1))
  | .resetBtn => some ([], some 0)
  | .other => some (history, index)

/-- The display branch results of app.py's `display_question`. -/
inductive Display where
  | noQuestions
  | completeMsg
  | showQ (stem : List Char) (options : Options4)
deriving DecidableEq

/-- `display_question` from app.py: guard on empty questions, then on
`idx >= len(order)` (the Complete state), else show
`questions[order[idx]]`. -/
def display_question (questions : List Block) (order : List Nat) (idx : Int) :
    Option Display :=
  if questions.isEmpty then some .noQuestions
  else if (order.length : Int) ≤ idx then some .completeMsg
  else
    match pyGet order idx with
    | none => none
    | some qi =>
      match questions.get? qi with
      | none => none
      | some q => some (.showQ q.stem q.options)

/-- The feedback of app.py's `reveal_answer`. -/
inductive Reveal where
  | noQuestion
  | revealed (ans : List Char) (optText : List Char)
deriving DecidableEq

/-- `reveal_answer` from app.py: guarded on empty questions/order, a
missing index and `index >= len(order)`; otherwise reveals the current
question's answer without touching any state. -/
def reveal_answer (questions : List Block) (order : List Nat) (index : Option Int) :
    Option Reveal :=
  match index with
  | none => some .noQuestion
  | some i =>
    if questions.isEmpty || order.isEmpty || (order.length : Int) ≤ i then
      some .noQuestion
    else
      match pyGet order i with
      | none => none
      | some qi =>
        match questions.get? qi with
        | none => none
        | some q =>
          match optLookup q.options q.answer with
          | none => none
          | some t => some (.revealed q.answer t)

end PrashnAi.app

namespace PrashnAi.app_simple

/-- The buttons that can trigger app_simple.py's `handle_actions`. -/
inductive Trig2 where
  | submitBtn
  | nextBtn
  | other
deriving DecidableEq

/-- One entry of app_simple.py's `history-store`:
`{"index": ..., "question": ..., "selected": ..., "correct": ..., "answer": ...}`. -/
structure SEvent where
  index : Int
  question : List Char
  selected : List Char
  correct : Bool
  answer : List Char
deriving DecidableEq

/-- `handle_actions` from app_simple.py, restricted to its state outputs
`(history-store, index-store)`.  `none` models an uncaught exception.
The submit branch first looks for a previous answer at the same
position (`next((h for h in history if h.get("index") == index), None)`,
guarded by `if history:`) and, if found, returns without mutating
anything; then it guards on a falsy selection; otherwise it appends.
The next branch is `min(index + 1, len(order) - 1)`. -/
def handle_actions (trig : Trig2) (selected : Option (List Char))
    (questions : List Block) (order : List Nat) (index : Int)
    (history : List SEvent) : Option (List SEvent × Int) :=
  match trig with
  | .submitBtn =>
    match (if history.isEmpty then none else history.find? fun h => h.index == index) with
    | some _ => some (history, index)
    | none =>
      if PrashnAi.chosenFalsy selected then some (history, index)
      else
        match selected with
        | none => none
        | some sel =>
          match pyGet order index with
          | none => none
          | some qi =>
            match questions.get? qi with
            | none => none
            | some q =>
              some (history ++ [⟨index, q.stem, sel, sel == q.answer, q.answer⟩], index)
  | .nextBtn => some (history, min (index + 1) ((order.length : Int) - 1))
  | .other => some (history, index)

/-- `display_question` from app_simple.py: one combined guard
`if not questions or not order or index >= len(order)`. -/
def display_question (questions : List Block) (order : List Nat) (index : Int) :
    Option PrashnAi.app.Display :=
  if questions.isEmpty || order.isEmpty || (order.length : Int) ≤ index then
    some .noQuestions
  else
    match pyGet order index with
    | none => none
    | some qi =>
      match questions.get? qi with
      | none => none
      | some q => some (.showQ q.stem q.options)

end PrashnAi.app_simple

namespace PrashnAi

/-! ### Auxiliary notions used only in theorem statements -/

/-- The canonical single-line rendering of a well-formed question block,
with a choice of numbering-token dialect: optional leading `Q`, digit
string `ds`, separator `sep` (`:` or `.`). -/
def renderBlock (hasQ : Bool) (ds : List Char) (sep : Char)
    (stem a b c d : List Char) (ansc : Char) : List Char :=
  (if hasQ then ['Q'] else []) ++
  (ds ++
  (sep :: ' ' ::
  (stem ++
  ('\n' :: 'A' :: ')' :: ' ' ::
  (a ++
  ('\n' :: 'B' :: ')' :: ' ' ::
  (b ++
  ('\n' :: 'C' :: ')' :: ' ' ::
  (c ++
  ('\n' :: 'D' :: ')' :: ' ' ::
  (d ++
  ('\n' :: 'A' :: 'n' :: 's' :: 'w' :: 'e' :: 'r' :: ':' :: ' ' :: [ansc]))))))))))))

/-- A piece of free text usable as a stem or option in a rendered block:
it starts with a non-space character (in particular it is non-empty) and
contains no newline. -/
def goodText (t : List Char) : Prop :=
  (match t with
   | [] => False
   | c :: _ => isPySpace c = false) ∧ '\n' ∉ t

instance (t : List Char) : Decidable (goodText t) := by
  unfold goodText
  cases t <;> exact inferInstanceAs (Decidable _)

/-- The literal token `Answer`. -/
def answerTok : List Char := ['A', 'n', 's', 'w', 'e', 'r']

/-- Whether the text contains the token `Answer` anywhere (it occurs as a
prefix of some suffix). -/
def hasAnswerTok (l : List Char) : Bool :=
  l.tails.any fun t => answerTok.isPrefixOf t

/-- A concrete question record used to instantiate theorems. -/
def sampleBlock : Block :=
  { qnum := 1
    stem := ['S', 't', 'e', 'm']
    stem_raw := ['S', 't', 'e', 'm']
    options := ⟨['a'], ['b'], ['c'], ['d']⟩
    answer := ['B'] }

/-- A second concrete question record. -/
def sampleBlock2 : Block :=
  { sampleBlock with qnum := 2, stem := ['T', 'w', 'o'], stem_raw := ['T', 'w', 'o'] }

/-- The adjacency relation of a whitespace-collapsed string: a space is
never followed by another space. -/
def spaceSep (a b : Char) : Prop := isPySpace a = true → isPySpace b = false

end PrashnAi

/-! ## Theorems -/

namespace PrashnAi

/-! ### Session state machine: submit / advance / display / reveal -/

/-- C9: in both variants, a `submit` with an absent or empty selection
reports "no selection" and leaves history and position unchanged (for
app_simple under the claim's precondition that no answer is recorded at
the current position). -/
theorem c9_submit_no_selection
    (history : List PyEvent) (index : Option Int) (questions : List Block)
    (order : List Nat) (chosen : Option (List Char))
    (hist2 : List app_simple.SEvent) (sel : Option (List Char))
    (qs2 : List Block) (ord2 : List Nat) (idx2 : Int)
    (hch : chosenFalsy chosen = true) (hsel : chosenFalsy sel = true)
    (hprev : hist2.find? (fun h => h.index == idx2) = none) :
    app.main_update .submitBtn history index questions order chosen = some (history, index) ∧
    app_simple.handle_actions .submitBtn sel qs2 ord2 idx2 hist2 = some (hist2, idx2) := by
  refine ⟨?_, ?_⟩
  · simp [app.main_update, hch]
  · unfold app_simple.handle_actions
    cases h : hist2.isEmpty <;> simp [h, hprev, hsel]

/-- C9 witness: a concrete no-selection submit in each variant. -/
theorem c9_witness :
    chosenFalsy (none : Option (List Char)) = true ∧
    app.main_update .submitBtn [] (some 0) [sampleBlock] [0] none = some ([], some 0) ∧
    app_simple.handle_actions .submitBtn none [sampleBlock] [0] 0 [] = some ([], 0) := by
  have h := c9_submit_no_selection [] (some 0) [sampleBlock] [0] none
    [] none [sampleBlock] [0] 0 (by decide) (by decide) (by decide)
  exact ⟨by decide, h.1, h.2⟩

/-- C1 (amended): app_simple's `handle_actions` is idempotent on
re-submission: when an answer is already recorded at the current
position, a further submit with any selection (including a different
label, or none) returns with history and position unchanged. -/
theorem c1_resubmission_idempotent_app_simple
    (sel : Option (List Char)) (questions : List Block) (order : List Nat)
    (index : Int) (history : List app_simple.SEvent) (prev : app_simple.SEvent)
    (h : history.find? (fun h => h.index == index) = some prev) :
    app_simple.handle_actions .submitBtn sel questions order index history
      = some (history, index) := by
  unfold app_simple.handle_actions
  cases history with
  | nil => simp at h
  | cons a l => simp [h]

/-- C1 witness: a concrete re-submission with a different label in
app_simple is a no-op. -/
theorem c1_witness :
    ([⟨0, ['S', 't', 'e', 'm'], ['B'], true, ['B']⟩] :
        List app_simple.SEvent).find? (fun h => h.index == 0)
      = some ⟨0, ['S', 't', 'e', 'm'], ['B'], true, ['B']⟩ ∧
    app_simple.handle_actions .submitBtn (some ['A']) [sampleBlock] [0] 0
        [⟨0, ['S', 't', 'e', 'm'], ['B'], true, ['B']⟩]
      = some ([⟨0, ['S', 't', 'e', 'm'], ['B'], true, ['B']⟩], 0) := by
  refine ⟨by decide, ?_⟩
  exact c1_resubmission_idempotent_app_simple (some ['A']) [sampleBlock] [0] 0
    [⟨0, ['S', 't', 'e', 'm'], ['B'], true, ['B']⟩]
    ⟨0, ['S', 't', 'e', 'm'], ['B'], true, ['B']⟩ (by decide)

/-- C1 counterexample: app.py's `main_update` has no re-submission guard;
with an answer already recorded at position 0, a second submit (with a
different label) appends a second event, so history after the second
call differs from history after the first. -/
theorem c1_counterexample_resubmit_appends :
    app.main_update .submitBtn [⟨0, 0, ['B'], true⟩] (some 0) [sampleBlock] [0] (some ['A'])
      = some ([⟨0, 0, ['B'], true⟩, ⟨0, 0, ['A'], false⟩], some 0) ∧
    ([⟨0, 0, ['B'], true⟩, ⟨0, 0, ['A'], false⟩] : List PyEvent)
      ≠ [⟨0, 0, ['B'], true⟩] := by
  exact ⟨by decide, by decide⟩

/-- C2 (amended): app.py's advance adds exactly one to the position with
no cap at all, so the position can exceed `len(order)`; app_simple's
advance computes `min(index + 1, len(order) - 1)`, which for an
in-range position is monotone and stays strictly below `len(order)`
(the position `len(order)` is never reached by advancing). -/
theorem c2_advance_amended :
    (∀ (history : List PyEvent) (i : Int) (questions : List Block) (order : List Nat)
        (chosen : Option (List Char)),
        app.main_update .nextBtn history (some i) questions order chosen
          = some (history, some (i + 1))) ∧
    (∀ (sel : Option (List Char)) (questions : List Block) (order : List Nat)
        (idx : Int) (history : List app_simple.SEvent),
        app_simple.handle_actions .nextBtn sel questions order idx history
          = some (history, min (idx + 1) ((order.length : Int) - 1))) ∧
    (∀ (idx : Int) (n : Nat), 0 ≤ idx → idx < (n : Int) →
        idx ≤ min (idx + 1) ((n : Int) - 1) ∧ min (idx + 1) ((n : Int) - 1) < (n : Int)) := by
  refine ⟨?_, ?_, ?_⟩
  · intro h i q o c
    by_cases hi : i = 0 <;> simp [app.main_update, hi]
  · intro s q o i h
    rfl
  · intro idx n h0 hn
    omega

/-- C2 witness: concrete advances in both variants. -/
theorem c2_witness :
    app.main_update .nextBtn [] (some 5) [] [] none = some ([], some (5 + 1)) ∧
    app_simple.handle_actions .nextBtn none [] [0, 0, 0] 0 []
      = some ([], min (0 + 1) (((3 : Nat) : Int) - 1)) ∧
    ((0 : Int) ≤ min ((0 : Int) + 1) (((3 : Nat) : Int) - 1) ∧
      min ((0 : Int) + 1) (((3 : Nat) : Int) - 1) < ((3 : Nat) : Int)) := by
  exact ⟨c2_advance_amended.1 [] 5 [] [] none,
    c2_advance_amended.2.1 none [] [0, 0, 0] 0 [],
    c2_advance_amended.2.2 0 3 (by decide) (by decide)⟩

/-- C2 counterexample: in app.py, with an order of length 1, advancing
from position 1 (already Complete) yields position 2, which exceeds
`len(order)`; so position is not capped at `len(order)` as claimed. -/
theorem c2_counterexample_uncapped :
    app.main_update .nextBtn [] (some 0) [sampleBlock] [0] none = some ([], some 1) ∧
    app.main_update .nextBtn [] (some 1) [sampleBlock] [0] none = some ([], some 2) ∧
    ¬ ((2 : Int) ≤ (([0] : List Nat).length : Int)) := by
  exact ⟨by decide, by decide, by decide⟩

/-- C4 (amended): while `Complete` or `Empty`, the display and reveal
operations and a selection-less submit report "nothing to act
on"/"no selection" without raising, and advance never raises; but a
submit carrying a non-empty selection in such a state is NOT guarded
(see the counterexample). -/
theorem c4_out_of_range_amended :
    (∀ (questions : List Block) (order : List Nat) (idx : Int),
        questions = [] ∨ (order.length : Int) ≤ idx →
        app.display_question questions order idx = some .noQuestions ∨
        app.display_question questions order idx = some .completeMsg) ∧
    (∀ (questions : List Block) (order : List Nat) (idx : Int),
        questions = [] ∨ order = [] ∨ (order.length : Int) ≤ idx →
        app_simple.display_question questions order idx = some .noQuestions) ∧
    (∀ (questions : List Block) (order : List Nat) (i : Int),
        questions = [] ∨ order = [] ∨ (order.length : Int) ≤ i →
        app.reveal_answer questions order (some i) = some .noQuestion) ∧
    (∀ (questions : List Block) (order : List Nat),
        app.reveal_answer questions order none = some .noQuestion) ∧
    (∀ (history : List PyEvent) (index : Option Int) (questions : List Block)
        (order : List Nat) (chosen : Option (List Char)),
        chosenFalsy chosen = true →
        app.main_update .submitBtn history index questions order chosen
          = some (history, index)) ∧
    (∀ (history : List PyEvent) (index : Option Int) (questions : List Block)
        (order : List Nat) (chosen : Option (List Char)),
        (app.main_update .nextBtn history index questions order chosen).isSome = true) ∧
    (∀ (sel : Option (List Char)) (questions : List Block) (order : List Nat)
        (idx : Int) (history : List app_simple.SEvent),
        (app_simple.handle_actions .nextBtn sel questions order idx history).isSome = true) := by
  refine ⟨?_, ?_, ?_, ?_, ?_, ?_, ?_⟩
  · intro qs ord idx h
    rcases h with h | h
    · subst h
      left
      simp [app.display_question]
    · cases hq : qs.isEmpty
      · right
        simp [app.display_question, hq, h]
      · left
        simp [app.display_question, hq]
  · intro qs ord idx h
    rcases h with h | h | h
    · subst h; simp [app_simple.display_question]
    · subst h; simp [app_simple.display_question]
    · simp [app_simple.display_question, h]
  · intro qs ord i h
    rcases h with h | h | h
    · subst h; simp [app.reveal_answer]
    · subst h; simp [app.reveal_answer]
    · simp [app.reveal_answer, h]
  · intro qs ord
    rfl
  · intro h idx qs ord ch hch
    simp [app.main_update, hch]
  · intro h idx qs ord ch
    cases idx <;> simp [app.main_update]
  · intro s qs ord idx h
    simp [app_simple.handle_actions]

/-- C4 witness: the guarded operations at concrete Complete/Empty
states. -/
theorem c4_witness :
    (app.display_question [] [] 0 = some .noQuestions ∨
      app.display_question [] [] 0 = some .completeMsg) ∧
    app_simple.display_question [] [] 0 = some .noQuestions ∧
    app.reveal_answer [sampleBlock] [0] (some 1) = some .noQuestion ∧
    app.main_update .submitBtn [] none [] [] none = some ([], none) := by
  exact ⟨c4_out_of_range_amended.1 [] [] 0 (Or.inl rfl),
    c4_out_of_range_amended.2.1 [] [] 0 (Or.inl rfl),
    c4_out_of_range_amended.2.2.1 [sampleBlock] [0] 1 (Or.inr (Or.inr (by decide))),
    c4_out_of_range_amended.2.2.2.2.1 [] none [] [] none (by decide)⟩

/-- C4 counterexample: a submit while Complete (position = len(order))
that does carry a selection is unguarded in app.py: `order[index]`
raises IndexError past the caller (modelled as `none`). -/
theorem c4_counterexample_submit_raises :
    app.main_update .submitBtn [] (some 1) [sampleBlock] [0] (some ['A']) = none := by
  decide

/-! ### Random sampling (C8) -/

theorem length_filterMap_get (xs : List Block) :
    ∀ t : List Nat, (∀ i ∈ t, i < xs.length) →
      (t.filterMap fun i => xs.get? i).length = t.length := by
  intro t ht
  induction t with
  | nil => rfl
  | cons a l ih =>
    have ha : a < xs.length := ht a (by simp)
    have hl := ih fun i hi => ht i (by simp [hi])
    rw [List.filterMap_cons, List.get?_eq_get ha]
    simp only [List.length_cons, hl]

/-- C8: sampling returns exactly `min k n` records; when `n ≤ k` the full
list is returned unchanged and no error is raised (the sampler's
randomness is injected as a permutation `σ` of the index range, as
`random.sample` guarantees distinct positions). -/
theorem c8_sampling_bound (σ : List Nat) (xs : List Block) (k : Nat)
    (hσ : σ.Perm (List.range xs.length)) :
    (app_simple.get_random_questions σ xs k).length = min k xs.length ∧
    (xs.length ≤ k → app_simple.get_random_questions σ xs k = xs) := by
  unfold app_simple.get_random_questions
  by_cases h : xs.length ≤ k
  · simp [h, Nat.min_eq_right h]
  · have hk : k < xs.length := Nat.lt_of_not_le h
    have hσlen : σ.length = xs.length := by simpa using hσ.length_eq
    refine ⟨?_, fun hle => absurd hle h⟩
    have hlt : ∀ i ∈ σ.take k, i < xs.length := by
      intro i hi
      have hmem : i ∈ σ := List.mem_of_mem_take hi
      simpa [List.mem_range] using hσ.mem_iff.mp hmem
    rw [if_neg h]
    unfold app_simple.pySample
    rw [length_filterMap_get xs (σ.take k) hlt, List.length_take, hσlen]

/-- C8 witness: a concrete sample request larger than the pool. -/
theorem c8_witness :
    ([1, 0] : List Nat).Perm (List.range ([sampleBlock, sampleBlock2] : List Block).length) ∧
    (app_simple.get_random_questions [1, 0] [sampleBlock, sampleBlock2] 5).length
      = min 5 ([sampleBlock, sampleBlock2] : List Block).length ∧
    (([sampleBlock, sampleBlock2] : List Block).length ≤ 5 →
      app_simple.get_random_questions [1, 0] [sampleBlock, sampleBlock2] 5
        = [sampleBlock, sampleBlock2]) := by
  have h := c8_sampling_bound [1, 0] [sampleBlock, sampleBlock2] 5 (by decide)
  exact ⟨by decide, h.1, h.2⟩

end PrashnAi

namespace PrashnAi

/-! ### Deduplication and the question-set builder (C7, C10) -/

theorem dedupeGo_key_not_mem (l : List Block) :
    ∀ (seen : List (List Char)) (b : Block), b ∈ dedupeGo seen l → keyOf b ∉ seen := by
  induction l with
  | nil =>
    intro seen b hb
    simp [dedupeGo] at hb
  | cons a l ih =>
    intro seen b hb
    by_cases ha : keyOf a ∈ seen
    · rw [dedupeGo, if_pos ha] at hb
      exact ih seen b hb
    · rw [dedupeGo, if_neg ha] at hb
      rcases List.mem_cons.mp hb with rfl | hb
      · exact ha
      · intro hc
        exact ih (keyOf a :: seen) b hb (List.mem_cons_of_mem _ hc)

theorem dedupeGo_pairwise (l : List Block) :
    ∀ seen : List (List Char),
      (dedupeGo seen l).Pairwise fun a b => keyOf a ≠ keyOf b := by
  induction l with
  | nil => intro seen; simp [dedupeGo]
  | cons a l ih =>
    intro seen
    by_cases ha : keyOf a ∈ seen
    · rw [dedupeGo, if_pos ha]
      exact ih seen
    · rw [dedupeGo, if_neg ha]
      refine List.Pairwise.cons ?_ (ih _)
      intro b hb heq
      exact dedupeGo_key_not_mem l (keyOf a :: seen) b hb (heq ▸ List.mem_cons_self _ _)

theorem dedupeGo_sublist (l : List Block) :
    ∀ seen : List (List Char), (dedupeGo seen l).Sublist l := by
  induction l with
  | nil => intro seen; simp [dedupeGo]
  | cons a l ih =>
    intro seen
    by_cases ha : keyOf a ∈ seen
    · rw [dedupeGo, if_pos ha]
      exact (ih seen).cons a
    · rw [dedupeGo, if_neg ha]
      exact (ih (keyOf a :: seen)).cons₂ a

theorem dedupeGo_find (l : List Block) :
    ∀ (seen : List (List Char)) (k : List Char), k ∉ seen →
      (dedupeGo seen l).find? (fun b => keyOf b == k) = l.find? fun b => keyOf b == k := by
  induction l with
  | nil => intro seen k _; simp [dedupeGo]
  | cons a l ih =>
    intro seen k hk
    by_cases hak : keyOf a = k
    · have ha : keyOf a ∉ seen := fun hc => hk (hak ▸ hc)
      have hta : (keyOf a == k) = true := by simp [hak]
      rw [dedupeGo, if_neg ha]
      simp [List.find?_cons, hta]
    · have hfa : (keyOf a == k) = false := by simp [hak]
      by_cases ha : keyOf a ∈ seen
      · rw [dedupeGo, if_pos ha, ih seen k hk]
        simp [List.find?_cons, hfa]
      · have hrec := ih (keyOf a :: seen) k (by
          intro hc
          rcases List.mem_cons.mp hc with hc | hc
          · exact hak hc.symm
          · exact hk hc)
        rw [dedupeGo, if_neg ha]
        simp [List.find?_cons, hfa, hrec]

/-- C7: deduplication keeps no two records with case-insensitively equal
normalized stems, is a sublist of its input (relative order preserved),
keeps exactly the first occurrence of each key, and the pairwise-distinct
invariant carries to the question sets built by both `parse_quiz_text`
variants with dedupe enabled. -/
theorem c7_dedupe_invariant (blocks : List Block) (text : List Char) (maxq : Nat) :
    ((dedupeBlocks blocks).Pairwise fun a b => keyOf a ≠ keyOf b) ∧
    (dedupeBlocks blocks).Sublist blocks ∧
    (∀ k : List Char, (dedupeBlocks blocks).find? (fun b => keyOf b == k)
        = blocks.find? fun b => keyOf b == k) ∧
    ((app.parse_quiz_text text true).Pairwise fun a b => keyOf a ≠ keyOf b) ∧
    ((app_simple.parse_quiz_text text true maxq).Pairwise
        fun a b => keyOf a ≠ keyOf b) := by
  refine ⟨dedupeGo_pairwise blocks [], dedupeGo_sublist blocks [],
    fun k => dedupeGo_find blocks [] k (by simp), ?_, ?_⟩
  · unfold app.parse_quiz_text sortBlocks
    simp only [if_true]
    have hp := List.perm_insertionSort blockLE
      (dedupeBlocks ((rawBlocks true false text).map toBlock))
    exact (hp.pairwise_iff fun h => Ne.symm h).mpr (dedupeGo_pairwise _ [])
  · unfold app_simple.parse_quiz_text sortBlocks
    simp only [if_true]
    have hp := List.perm_insertionSort blockLE
      (dedupeBlocks ((rawBlocks false true text).map toBlock))
    have hs := (hp.pairwise_iff fun h => Ne.symm h).mpr (dedupeGo_pairwise _ [])
    by_cases hm : maxq <
        ((dedupeBlocks ((rawBlocks false true text).map toBlock)).insertionSort blockLE).length
    · rw [if_pos hm]
      exact hs.sublist (List.take_sublist _ _)
    · rw [if_neg hm]
      exact hs

/-- C10: with its default arguments, app_simple's `parse_quiz_text`
returns exactly the first 25 records of the deduplicated,
qnum-sorted match list — in particular at most 25 records, sorted
ascending by qnum, silently dropping the rest. -/
theorem c10_default_cap (text : List Char) :
    app_simple.parse_quiz_text_default text
      = (sortBlocks (dedupeBlocks ((rawBlocks false true text).map toBlock))).take 25 ∧
    (app_simple.parse_quiz_text_default text).length ≤ 25 ∧
    (app_simple.parse_quiz_text_default text).Sorted blockLE := by
  have heq : app_simple.parse_quiz_text_default text
      = (sortBlocks (dedupeBlocks ((rawBlocks false true text).map toBlock))).take 25 := by
    unfold app_simple.parse_quiz_text_default app_simple.parse_quiz_text
    simp only [if_true]
    by_cases h : 25 <
        (sortBlocks (dedupeBlocks ((rawBlocks false true text).map toBlock))).length
    · rw [if_pos h]
    · rw [if_neg h, List.take_of_length_le (Nat.le_of_not_lt h)]
  have hsorted : (sortBlocks (dedupeBlocks ((rawBlocks false true text).map
      toBlock))).Sorted blockLE := List.sorted_insertionSort blockLE _
  refine ⟨heq, ?_, ?_⟩
  · rw [heq, List.length_take]
    exact Nat.min_le_left _ _
  · rw [heq]
    exact hsorted.sublist (List.take_sublist _ _)

end PrashnAi

namespace PrashnAi

/-! ### Normalizer: idempotence machinery for `clean_text` (C6) -/

theorem spaceSep_flip (a b : Char) (h : spaceSep a b) : spaceSep b a := by
  intro hb
  cases ha : isPySpace a
  · rfl
  · exact absurd (h ha) (by simp [hb])

theorem cw_spaces : ∀ l : List Char, ∀ c ∈ collapseWs l, isPySpace c = true → c = ' '
  | [] => by simp [collapseWs]
  | [a] => by
    intro c hc hsp
    by_cases ha : isPySpace a = true
    · simp [collapseWs, ha] at hc
      exact hc
    · simp only [collapseWs, if_neg ha, List.mem_singleton] at hc
      subst hc
      exact absurd hsp ha
  | a :: b :: rest => by
    intro c hc hsp
    by_cases ha : isPySpace a = true
    · by_cases hb : isPySpace b = true
      · rw [collapseWs, if_pos ha, if_pos hb] at hc
        exact cw_spaces (b :: rest) c hc hsp
      · rw [collapseWs, if_pos ha, if_neg hb] at hc
        rcases List.mem_cons.mp hc with rfl | hc
        · rfl
        · exact cw_spaces (b :: rest) c hc hsp
    · rw [collapseWs, if_neg ha] at hc
      rcases List.mem_cons.mp hc with rfl | hc
      · exact absurd hsp ha
      · exact cw_spaces (b :: rest) c hc hsp

theorem cw_head (b : Char) (rest : List Char) (hb : isPySpace b = false) :
    (collapseWs (b :: rest)).head? = some b := by
  cases rest with
  | nil => simp [collapseWs, hb]
  | cons c rest => rw [collapseWs, if_neg (by simp [hb])]; rfl

theorem cw_chain : ∀ l : List Char, (collapseWs l).Chain' spaceSep
  | [] => by simp [collapseWs]
  | [a] => by
    by_cases ha : isPySpace a = true <;> simp [collapseWs, ha]
  | a :: b :: rest => by
    by_cases ha : isPySpace a = true
    · by_cases hb : isPySpace b = true
      · rw [collapseWs, if_pos ha, if_pos hb]
        exact cw_chain (b :: rest)
      · have hb2 : isPySpace b = false := by simpa using hb
        rw [collapseWs, if_pos ha, if_neg hb]
        refine List.chain'_cons'.mpr ⟨?_, cw_chain (b :: rest)⟩
        intro y hy
        rw [cw_head b rest hb2] at hy
        cases hy
        intro _
        exact hb2
    · rw [collapseWs, if_neg ha]
      refine List.chain'_cons'.mpr ⟨?_, cw_chain (b :: rest)⟩
      intro y _ hsp
      exact absurd hsp (by simp [ha])

theorem cw_fix : ∀ l : List Char,
    (∀ c ∈ l, isPySpace c = true → c = ' ') → l.Chain' spaceSep → collapseWs l = l
  | [] => by intro _ _; rfl
  | [a] => by
    intro hsp _
    by_cases ha : isPySpace a = true
    · rw [collapseWs, if_pos ha, hsp a (by simp) ha]
    · rw [collapseWs, if_neg ha]
  | a :: b :: rest => by
    intro hsp hch
    have hch2 := List.chain'_cons.mp hch
    have hrec := cw_fix (b :: rest) (fun c hc => hsp c (List.mem_cons_of_mem _ hc)) hch2.2
    by_cases ha : isPySpace a = true
    · have hb : isPySpace b = false := hch2.1 ha
      rw [collapseWs, if_pos ha, if_neg (by simp [hb]), hrec, hsp a (by simp) ha]
    · rw [collapseWs, if_neg ha, hrec]

theorem dw_head_not (p : Char → Bool) :
    ∀ (l : List Char) (c : Char), (l.dropWhile p).head? = some c → p c = false := by
  intro l
  induction l with
  | nil => intro c hc; simp [List.dropWhile] at hc
  | cons a l ih =>
    intro c hc
    by_cases ha : p a = true
    · rw [List.dropWhile_cons, if_pos ha] at hc
      exact ih c hc
    · rw [List.dropWhile_cons, if_neg ha] at hc
      cases hc
      simpa using ha

theorem dw_self (p : Char → Bool) (l : List Char)
    (h : ∀ c, l.head? = some c → p c = false) : l.dropWhile p = l := by
  cases l with
  | nil => rfl
  | cons a l =>
    rw [List.dropWhile_cons, if_neg (by simp [h a rfl])]

theorem stripEnds_subset (l : List Char) : stripEnds l ⊆ l := by
  intro c hc
  unfold stripEnds at hc
  rw [List.mem_reverse] at hc
  have h1 := (List.dropWhile_suffix isPySpace).sublist.subset hc
  rw [List.mem_reverse] at h1
  exact (List.dropWhile_suffix isPySpace).sublist.subset h1

theorem chain_reverse_sep (l : List Char) (h : l.Chain' spaceSep) :
    l.reverse.Chain' spaceSep := by
  rw [List.chain'_reverse]
  exact h.imp spaceSep_flip

theorem stripEnds_chain (l : List Char) (h : l.Chain' spaceSep) :
    (stripEnds l).Chain' spaceSep := by
  unfold stripEnds
  refine chain_reverse_sep _ ?_
  refine List.Chain'.suffix ?_ (List.dropWhile_suffix isPySpace)
  refine chain_reverse_sep _ ?_
  exact List.Chain'.suffix h (List.dropWhile_suffix isPySpace)

theorem stripEnds_last_not (l : List Char) (c : Char)
    (h : (stripEnds l).getLast? = some c) : isPySpace c = false := by
  unfold stripEnds at h
  rw [List.getLast?_reverse] at h
  exact dw_head_not isPySpace _ c h

theorem stripEnds_head_not (l : List Char) (c : Char)
    (h : (stripEnds l).head? = some c) : isPySpace c = false := by
  unfold stripEnds at h
  rw [List.head?_reverse] at h
  obtain ⟨t, ht⟩ := List.dropWhile_suffix (l := (l.dropWhile isPySpace).reverse) isPySpace
  have hne : (l.dropWhile isPySpace).reverse.dropWhile isPySpace ≠ [] := by
    intro he
    rw [he] at h
    simp at h
  have : ((l.dropWhile isPySpace).reverse).getLast? = some c := by
    rw [← ht, List.getLast?_append, h]
    rfl
  rw [List.getLast?_reverse] at this
  exact dw_head_not isPySpace _ c this

theorem stripEnds_fix (l : List Char)
    (hh : ∀ c, l.head? = some c → isPySpace c = false)
    (hl : ∀ c, l.getLast? = some c → isPySpace c = false) : stripEnds l = l := by
  unfold stripEnds
  rw [dw_self isPySpace l hh]
  rw [dw_self isPySpace l.reverse (by
    intro c hc
    rw [List.head?_reverse] at hc
    exact hl c hc)]
  exact List.reverse_reverse l

theorem clean_text_idem (l : List Char) : clean_text (clean_text l) = clean_text l := by
  have hsp : ∀ c ∈ clean_text l, isPySpace c = true → c = ' ' := by
    intro c hc
    exact cw_spaces l c (stripEnds_subset (collapseWs l) hc)
  have hch : (clean_text l).Chain' spaceSep := stripEnds_chain _ (cw_chain l)
  show stripEnds (collapseWs (clean_text l)) = clean_text l
  rw [cw_fix (clean_text l) hsp hch]
  exact stripEnds_fix _ (stripEnds_head_not (collapseWs l)) (stripEnds_last_not (collapseWs l))

/-- C6 counterexample: removing a variant tag can splice together a new
variant tag, so `normalize_stem` is not idempotent: on
`"(vari(variant a)ant b)"` one application yields `"(variant b)"` and a
second application yields the empty string. -/
theorem c6_counterexample_not_idempotent :
    normalize_stem (normalize_stem
        ['(', 'v', 'a', 'r', 'i', '(', 'v', 'a', 'r', 'i', 'a', 'n', 't', ' ', 'a', ')',
         'a', 'n', 't', ' ', 'b', ')'])
      ≠ normalize_stem
        ['(', 'v', 'a', 'r', 'i', '(', 'v', 'a', 'r', 'i', 'a', 'n', 't', ' ', 'a', ')',
         'a', 'n', 't', ' ', 'b', ')'] := by
  decide

/-- C6 (amended): `normalize_stem` is idempotent on every stem whose
once-normalized form contains no further variant-tag match (equivalently,
whenever the variant-removal pass fixes the normalized stem); full
idempotence fails only when removal splices a new `(variant...)` tag
together, as in the counterexample. -/
theorem c6_normalize_stem_idempotent_amended (s : List Char)
    (h : removeVariant (normalize_stem s) = normalize_stem s) :
    normalize_stem (normalize_stem s) = normalize_stem s := by
  show clean_text (removeVariant (normalize_stem s)) = normalize_stem s
  rw [h]
  show clean_text (clean_text (removeVariant s)) = clean_text (removeVariant s)
  exact clean_text_idem _

/-- C6 witness: a concrete ordinary stem on which normalization is
idempotent. -/
theorem c6_witness :
    removeVariant (normalize_stem
        ['B', 'o', 'n', 'e', '?', ' ', '(', 'v', 'a', 'r', 'i', 'a', 'n', 't', ' ', '4', ')'])
      = normalize_stem
        ['B', 'o', 'n', 'e', '?', ' ', '(', 'v', 'a', 'r', 'i', 'a', 'n', 't', ' ', '4', ')'] ∧
    normalize_stem (normalize_stem
        ['B', 'o', 'n', 'e', '?', ' ', '(', 'v', 'a', 'r', 'i', 'a', 'n', 't', ' ', '4', ')'])
      = normalize_stem
        ['B', 'o', 'n', 'e', '?', ' ', '(', 'v', 'a', 'r', 'i', 'a', 'n', 't', ' ', '4', ')'] := by
  refine ⟨by decide, ?_⟩
  exact c6_normalize_stem_idempotent_amended
    ['B', 'o', 'n', 'e', '?', ' ', '(', 'v', 'a', 'r', 'i', 'a', 'n', 't', ' ', '4', ')']
    (by decide)

end PrashnAi

namespace PrashnAi

/-! ### The matcher on well-formed rendered blocks (C3) -/

theorem skipWs_nonspace (c : Char) (l : List Char) (h : isPySpace c = false) :
    skipWs (c :: l) = c :: l := by
  unfold skipWs
  rw [List.dropWhile_cons, if_neg (by simp [h])]

theorem digit_nonspace (ch : Char) (h : ch.isDigit = true) : isPySpace ch = false := by
  have h1 : ¬ (ch = ' ') := by rintro rfl; exact absurd h (by decide)
  have h2 : ¬ (ch = '\t') := by rintro rfl; exact absurd h (by decide)
  have h3 : ¬ (ch = '\n') := by rintro rfl; exact absurd h (by decide)
  have h4 : ¬ (ch = '\r') := by rintro rfl; exact absurd h (by decide)
  have h5 : ¬ (ch = '\x0b') := by rintro rfl; exact absurd h (by decide)
  have h6 : ¬ (ch = '\x0c') := by rintro rfl; exact absurd h (by decide)
  simp [isPySpace, h1, h2, h3, h4, h5, h6]

theorem digit_not_Q (ch : Char) (h : ch.isDigit = true) : ¬ (ch = 'Q') := by
  rintro rfl; exact absurd h (by decide)

theorem lazySplit_eq {α : Type} (k : List Char → Option α) :
    ∀ (p t : List Char) (a : α),
      (∀ i, (hi : i < p.length) → k (p.drop i ++ t) = none) → k t = some a →
      lazySplit k (p ++ t) = some (p, a) := by
  intro p
  induction p with
  | nil =>
    intro t a _ ht
    cases t with
    | nil => simp [lazySplit, ht]
    | cons c rest => simp [lazySplit, ht]
  | cons c p ih =>
    intro t a hp ht
    have h0 : k (c :: (p ++ t)) = none := by
      have := hp 0 (by simp)
      simpa using this
    have hrec := ih t a (fun i hi => by
      have := hp (i + 1) (by simpa using Nat.succ_lt_succ hi)
      simpa using this) ht
    simp [lazySplit, h0, hrec]

theorem gwtl_cons_space {α : Type} (k : List Char → Option α) (c : Char) (rest : List Char)
    (r : List Char × α) (hc : isPySpace c = true) (h : gwtl k rest = some r) :
    gwtl k (c :: rest) = some r := by
  simp [gwtl, hc, h]

theorem gwtl_cons_nonspace {α : Type} (k : List Char → Option α) (c : Char) (rest : List Char)
    (hc : isPySpace c = false) :
    gwtl k (c :: rest) = lazySplit k (c :: rest) := by
  simp [gwtl, hc]

theorem afterMarker_ne (m : List Char) (c : Char) (l : List Char) (hc : ¬ (c = '\n')) :
    afterMarker m (c :: l) = none := by
  unfold afterMarker
  split
  · rename_i r heq
    injection heq with h1 _
    exact absurd h1 hc
  · rfl

theorem afterMarker_two (x y : Char) (rest : List Char) (hx : isPySpace x = false) :
    afterMarker [x, y] ('\n' :: x :: y :: rest) = some rest := by
  show (let r1 := skipWs (x :: y :: rest);
        if [x, y].isPrefixOf r1 then some (r1.drop 2) else none) = some rest
  rw [skipWs_nonspace x _ hx]
  simp [List.isPrefixOf]

theorem answerCont_ne (c : Char) (l : List Char) (hc : ¬ (c = '\n')) :
    answerCont (c :: l) = none := by
  unfold answerCont
  split
  · rename_i r heq
    injection heq with h1 _
    exact absurd h1 hc
  · rfl

theorem answerCont_render (ansc : Char)
    (hans : ansc = 'A' ∨ ansc = 'B' ∨ ansc = 'C' ∨ ansc = 'D') :
    answerCont ('\n' :: 'A' :: 'n' :: 's' :: 'w' :: 'e' :: 'r' :: ':' :: ' ' :: [ansc])
      = some (ansc, []) := by
  rcases hans with rfl | rfl | rfl | rfl <;> rfl

/-- One `\s*(.*?)\n<continuation>` stage on a rendered fragment
`' ' :: (g ++ '\n' :: t)` with `g` good text and a continuation that
fires only on a newline: the group is exactly `g`. -/
theorem gwtl_stage {α : Type} (k : List Char → Option α) (g t : List Char) (a : α)
    (hg : goodText g)
    (hne : ∀ (c : Char) (l : List Char), ¬ (c = '\n') → k (c :: l) = none)
    (ht : k ('\n' :: t) = some a) :
    gwtl k (' ' :: (g ++ '\n' :: t)) = some (g, a) := by
  apply gwtl_cons_space _ _ _ _ (by decide)
  obtain ⟨hhead, hnl⟩ := hg
  cases g with
  | nil => exact absurd hhead (by simp)
  | cons c0 grest =>
    rw [List.cons_append, gwtl_cons_nonspace _ _ _ (by simpa using hhead),
      ← List.cons_append]
    apply lazySplit_eq k (c0 :: grest) ('\n' :: t) a ?_ ht
    intro i hi
    rw [List.drop_eq_getElem_cons hi, List.cons_append]
    refine hne _ _ ?_
    intro he
    exact hnl (he ▸ List.getElem_mem hi)

theorem takeWhile_all_append (p : Char → Bool) :
    ∀ (l1 : List Char) (c : Char) (l2 : List Char),
      (∀ x ∈ l1, p x = true) → p c = false →
      (l1 ++ c :: l2).takeWhile p = l1 ∧ (l1 ++ c :: l2).dropWhile p = c :: l2 := by
  intro l1
  induction l1 with
  | nil =>
    intro c l2 _ hc
    constructor
    · rw [List.nil_append, List.takeWhile_cons, if_neg (by simp [hc])]
    · rw [List.nil_append, List.dropWhile_cons, if_neg (by simp [hc])]
  | cons x l1 ih =>
    intro c l2 hall hc
    have hx : p x = true := hall x (by simp)
    have := ih c l2 (fun y hy => hall y (by simp [hy])) hc
    constructor
    · rw [List.cons_append, List.takeWhile_cons, if_pos (by simp [hx]), this.1]
    · rw [List.cons_append, List.dropWhile_cons, if_pos (by simp [hx]), this.2]

theorem afterQtok_Q (reqQ : Bool) (l : List Char) :
    afterQtok reqQ ('Q' :: l) = some (skipWs l) := rfl

theorem afterQtok_not_Q (reqQ : Bool) (c : Char) (l : List Char) (hc : ¬ (c = 'Q')) :
    afterQtok reqQ (c :: l) = if reqQ then none else some (c :: l) := by
  unfold afterQtok
  split
  · rename_i r heq
    injection heq with h1 _
    exact absurd h1 hc
  · rfl

theorem matchNum_render (reqQ allowDot hasQ : Bool) (ds : List Char) (sep : Char)
    (tail : List Char) (hds : ds ≠ []) (hdig : ∀ x ∈ ds, x.isDigit = true)
    (hsep : sep = ':' ∨ (sep = '.' ∧ allowDot = true))
    (hq : reqQ = true → hasQ = true) :
    matchNum reqQ allowDot ((if hasQ then ['Q'] else []) ++ (ds ++ (sep :: tail)))
      = some (ds, tail) := by
  obtain ⟨d0, ds', rfl⟩ : ∃ d0 ds', ds = d0 :: ds' := by
    cases ds with
    | nil => exact absurd rfl hds
    | cons d0 ds' => exact ⟨d0, ds', rfl⟩
  have hd0 : d0.isDigit = true := hdig d0 (by simp)
  have hsepd : sep.isDigit = false := by
    rcases hsep with rfl | ⟨rfl, _⟩ <;> decide
  have hsepsp : isPySpace sep = false := by
    rcases hsep with rfl | ⟨rfl, _⟩ <;> decide
  have htdw := takeWhile_all_append Char.isDigit (d0 :: ds') sep tail hdig hsepd
  have hq2 : afterQtok reqQ ((if hasQ then ['Q'] else []) ++ ((d0 :: ds') ++ (sep :: tail)))
      = some ((d0 :: ds') ++ (sep :: tail)) := by
    cases hasQ with
    | true =>
      show afterQtok reqQ ('Q' :: ((d0 :: ds') ++ (sep :: tail))) = _
      rw [afterQtok_Q]
      rw [List.cons_append, skipWs_nonspace d0 _ (digit_nonspace d0 hd0)]
    | false =>
      show afterQtok reqQ (d0 :: (ds' ++ (sep :: tail))) = _
      rw [afterQtok_not_Q reqQ d0 _ (digit_not_Q d0 hd0)]
      cases hreq : reqQ with
      | true => exact absurd (hq hreq) (by simp)
      | false => simp
  unfold matchNum
  rw [hq2, Option.some_bind]
  simp only [htdw.1, htdw.2, skipWs_nonspace sep tail hsepsp]
  rcases hsep with rfl | ⟨rfl, had⟩
  · simp
  · simp [had]

end PrashnAi

namespace PrashnAi

/-- A full `QA_BLOCK_RE` match of a canonically rendered block: every
group comes out verbatim and the match consumes the whole text. -/
theorem matchBlockAt_render (reqQ allowDot hasQ : Bool) (ds : List Char) (sep : Char)
    (stem a b c d : List Char) (ansc : Char)
    (hds : ds ≠ []) (hdig : ∀ x ∈ ds, x.isDigit = true)
    (hsep : sep = ':' ∨ (sep = '.' ∧ allowDot = true))
    (hq : reqQ = true → hasQ = true)
    (hstem : goodText stem) (hA : goodText a) (hB : goodText b) (hC : goodText c)
    (hD : goodText d)
    (hans : ansc = 'A' ∨ ansc = 'B' ∨ ansc = 'C' ∨ ansc = 'D') :
    matchBlockAt reqQ allowDot (renderBlock hasQ ds sep stem a b c d ansc)
      = some (⟨ds, stem, a, b, c, d, ansc⟩, []) := by
  have h1 := matchNum_render reqQ allowDot hasQ ds sep
    (' ' :: (stem ++ ('\n' :: 'A' :: ')' :: ' ' :: (a ++ ('\n' :: 'B' :: ')' :: ' ' :: (b ++ ('\n' :: 'C' :: ')' :: ' ' :: (c ++ ('\n' :: 'D' :: ')' :: ' ' :: (d ++ ('\n' :: 'A' :: 'n' :: 's' :: 'w' :: 'e' :: 'r' :: ':' :: ' ' :: [ansc]))))))))))) hds hdig hsep hq
  have h2 := gwtl_stage (afterMarker ['A', ')']) stem
    ('A' :: ')' :: ' ' :: (a ++ ('\n' :: 'B' :: ')' :: ' ' :: (b ++ ('\n' :: 'C' :: ')' :: ' ' :: (c ++ ('\n' :: 'D' :: ')' :: ' ' :: (d ++ ('\n' :: 'A' :: 'n' :: 's' :: 'w' :: 'e' :: 'r' :: ':' :: ' ' :: [ansc]))))))))) (' ' :: (a ++ ('\n' :: 'B' :: ')' :: ' ' :: (b ++ ('\n' :: 'C' :: ')' :: ' ' :: (c ++ ('\n' :: 'D' :: ')' :: ' ' :: (d ++ ('\n' :: 'A' :: 'n' :: 's' :: 'w' :: 'e' :: 'r' :: ':' :: ' ' :: [ansc]))))))))) hstem
    (fun c l hc => afterMarker_ne _ c l hc)
    (afterMarker_two 'A' ')' (' ' :: (a ++ ('\n' :: 'B' :: ')' :: ' ' :: (b ++ ('\n' :: 'C' :: ')' :: ' ' :: (c ++ ('\n' :: 'D' :: ')' :: ' ' :: (d ++ ('\n' :: 'A' :: 'n' :: 's' :: 'w' :: 'e' :: 'r' :: ':' :: ' ' :: [ansc]))))))))) (by decide))
  have h3 := gwtl_stage (afterMarker ['B', ')']) a
    ('B' :: ')' :: ' ' :: (b ++ ('\n' :: 'C' :: ')' :: ' ' :: (c ++ ('\n' :: 'D' :: ')' :: ' ' :: (d ++ ('\n' :: 'A' :: 'n' :: 's' :: 'w' :: 'e' :: 'r' :: ':' :: ' ' :: [ansc]))))))) (' ' :: (b ++ ('\n' :: 'C' :: ')' :: ' ' :: (c ++ ('\n' :: 'D' :: ')' :: ' ' :: (d ++ ('\n' :: 'A' :: 'n' :: 's' :: 'w' :: 'e' :: 'r' :: ':' :: ' ' :: [ansc]))))))) hA
    (fun c l hc => afterMarker_ne _ c l hc)
    (afterMarker_two 'B' ')' (' ' :: (b ++ ('\n' :: 'C' :: ')' :: ' ' :: (c ++ ('\n' :: 'D' :: ')' :: ' ' :: (d ++ ('\n' :: 'A' :: 'n' :: 's' :: 'w' :: 'e' :: 'r' :: ':' :: ' ' :: [ansc]))))))) (by decide))
  have h4 := gwtl_stage (afterMarker ['C', ')']) b
    ('C' :: ')' :: ' ' :: (c ++ ('\n' :: 'D' :: ')' :: ' ' :: (d ++ ('\n' :: 'A' :: 'n' :: 's' :: 'w' :: 'e' :: 'r' :: ':' :: ' ' :: [ansc]))))) (' ' :: (c ++ ('\n' :: 'D' :: ')' :: ' ' :: (d ++ ('\n' :: 'A' :: 'n' :: 's' :: 'w' :: 'e' :: 'r' :: ':' :: ' ' :: [ansc]))))) hB
    (fun c l hc => afterMarker_ne _ c l hc)
    (afterMarker_two 'C' ')' (' ' :: (c ++ ('\n' :: 'D' :: ')' :: ' ' :: (d ++ ('\n' :: 'A' :: 'n' :: 's' :: 'w' :: 'e' :: 'r' :: ':' :: ' ' :: [ansc]))))) (by decide))
  have h5 := gwtl_stage (afterMarker ['D', ')']) c
    ('D' :: ')' :: ' ' :: (d ++ ('\n' :: 'A' :: 'n' :: 's' :: 'w' :: 'e' :: 'r' :: ':' :: ' ' :: [ansc]))) (' ' :: (d ++ ('\n' :: 'A' :: 'n' :: 's' :: 'w' :: 'e' :: 'r' :: ':' :: ' ' :: [ansc]))) hC
    (fun c l hc => afterMarker_ne _ c l hc)
    (afterMarker_two 'D' ')' (' ' :: (d ++ ('\n' :: 'A' :: 'n' :: 's' :: 'w' :: 'e' :: 'r' :: ':' :: ' ' :: [ansc]))) (by decide))
  have h6 := gwtl_stage answerCont d
    ('A' :: 'n' :: 's' :: 'w' :: 'e' :: 'r' :: ':' :: ' ' :: [ansc]) (ansc, []) hD
    (fun c l hc => answerCont_ne c l hc)
    (answerCont_render ansc hans)
  unfold matchBlockAt renderBlock
  simp only [h1, h2, h3, h4, h5, h6, Option.some_bind]

end PrashnAi

namespace PrashnAi

theorem scanAux_nil (rq ad : Bool) (f : Nat) (b : Bool) : scanAux rq ad f [] b = [] := by
  cases f <;> rfl

theorem finditer_single (rq ad : Bool) (l : List Char) (rb : RawBlock)
    (hl : l ≠ []) (h : matchBlockAt rq ad l = some (rb, [])) :
    finditerBlocks rq ad l = [rb] := by
  unfold finditerBlocks
  cases l with
  | nil => exact absurd rfl hl
  | cons c rest =>
    show scanAux rq ad (rest.length + 1 + 1) (c :: rest) true = [rb]
    simp [scanAux, h, scanAux_nil]

theorem rawBlocks_single (rq ad : Bool) (l : List Char) (rb : RawBlock)
    (hl : l ≠ []) (h : matchBlockAt rq ad l = some (rb, [])) :
    rawBlocks rq ad l = [rb] := by
  unfold rawBlocks
  rw [finditer_single rq ad l rb hl h]
  simp

theorem renderBlock_ne_nil (hasQ : Bool) (ds : List Char) (sep : Char)
    (stem a b c d : List Char) (ansc : Char) :
    renderBlock hasQ ds sep stem a b c d ansc ≠ [] := by
  unfold renderBlock
  cases hasQ <;> simp

/-- C3 (amended): app_simple's block parser accepts every numbering-token
dialect — with or without the leading `Q`, with `:` or `.` as separator —
on every otherwise well-formed block; app.py's parser accepts the
`Q<digits>:` dialect (and, per the counterexample, rejects the
digits-only dialects). -/
theorem c3_dialects_amended (hasQ : Bool) (ds : List Char) (sep : Char)
    (stem a b c d : List Char) (ansc : Char)
    (hds : ds ≠ []) (hdig : ∀ x ∈ ds, x.isDigit = true)
    (hsep : sep = ':' ∨ sep = '.')
    (hstem : goodText stem) (hA : goodText a) (hB : goodText b) (hC : goodText c)
    (hD : goodText d)
    (hans : ansc = 'A' ∨ ansc = 'B' ∨ ansc = 'C' ∨ ansc = 'D') :
    app_simple.parse_quiz_text (renderBlock hasQ ds sep stem a b c d ansc) true 25
      = [toBlock ⟨ds, stem, a, b, c, d, ansc⟩] ∧
    (hasQ = true → sep = ':' →
      app.parse_quiz_text (renderBlock hasQ ds sep stem a b c d ansc) true
        = [toBlock ⟨ds, stem, a, b, c, d, ansc⟩]) := by
  have hne := renderBlock_ne_nil hasQ ds sep stem a b c d ansc
  constructor
  · have hm := matchBlockAt_render false true hasQ ds sep stem a b c d ansc hds hdig
      (by rcases hsep with h | h
          · exact Or.inl h
          · exact Or.inr ⟨h, rfl⟩)
      (by simp) hstem hA hB hC hD hans
    have hraw := rawBlocks_single false true _ _ hne hm
    unfold app_simple.parse_quiz_text
    rw [hraw]
    simp [dedupeBlocks, dedupeGo, sortBlocks]
  · intro hQ hcol
    subst hQ
    subst hcol
    have hm := matchBlockAt_render true false true ds ':' stem a b c d ansc hds hdig
      (Or.inl rfl) (fun _ => rfl) hstem hA hB hC hD hans
    have hraw := rawBlocks_single true false _ _ hne hm
    unfold app.parse_quiz_text
    rw [hraw]
    simp [dedupeBlocks, dedupeGo, sortBlocks]

/-- C3 witness: a concrete well-formed block in the `Q<digits>:` dialect
parses to its record in both variants. -/
theorem c3_witness :
    app_simple.parse_quiz_text
        (renderBlock true ['1'] ':' ['S'] ['a'] ['b'] ['c'] ['d'] 'B') true 25
      = [toBlock ⟨['1'], ['S'], ['a'], ['b'], ['c'], ['d'], 'B'⟩] ∧
    app.parse_quiz_text
        (renderBlock true ['1'] ':' ['S'] ['a'] ['b'] ['c'] ['d'] 'B') true
      = [toBlock ⟨['1'], ['S'], ['a'], ['b'], ['c'], ['d'], 'B'⟩] := by
  have h := c3_dialects_amended true ['1'] ':' ['S'] ['a'] ['b'] ['c'] ['d'] 'B'
    (by decide) (by decide) (Or.inl rfl) (by decide) (by decide) (by decide) (by decide)
    (by decide) (Or.inr (Or.inl rfl))
  exact ⟨h.1, h.2 rfl rfl⟩

/-- C3 counterexample: a well-formed block in the `<digits>.` dialect
yields no record at all in app.py (whose `QA_BLOCK_RE` demands a literal
`Q` and `:`), while app_simple parses it; so the claim fails for app.py's
parser. -/
theorem c3_counterexample_app_rejects_digit_dialect :
    app.parse_quiz_text
        ('1' :: '.' :: ' ' :: 'S' :: '\n' :: 'A' :: ')' :: ' ' :: 'a' :: '\n' ::
         'B' :: ')' :: ' ' :: 'b' :: '\n' :: 'C' :: ')' :: ' ' :: 'c' :: '\n' ::
         'D' :: ')' :: ' ' :: 'd' :: '\n' ::
         'A' :: 'n' :: 's' :: 'w' :: 'e' :: 'r' :: ':' :: ' ' :: ['B']) true = [] ∧
    app_simple.parse_quiz_text
        ('1' :: '.' :: ' ' :: 'S' :: '\n' :: 'A' :: ')' :: ' ' :: 'a' :: '\n' ::
         'B' :: ')' :: ' ' :: 'b' :: '\n' :: 'C' :: ')' :: ' ' :: 'c' :: '\n' ::
         'D' :: ')' :: ' ' :: 'd' :: '\n' ::
         'A' :: 'n' :: 's' :: 'w' :: 'e' :: 'r' :: ':' :: ' ' :: ['B']) true 25 ≠ [] := by
  exact ⟨by decide, by decide⟩

end PrashnAi

namespace PrashnAi

/-! ### Structural invariants of any successful match (C5) -/

theorem lazySplit_some {α : Type} (k : List Char → Option α) :
    ∀ (l p : List Char) (a : α), lazySplit k l = some (p, a) →
      ∃ t, t.IsSuffix l ∧ k t = some a := by
  intro l
  induction l with
  | nil =>
    intro p a h
    cases hk : k [] with
    | none => rw [lazySplit, hk] at h; exact absurd h (by simp)
    | some a0 =>
      rw [lazySplit, hk] at h
      injection h with h1
      injection h1 with _ h2
      exact ⟨[], List.nil_suffix, h2 ▸ hk⟩
  | cons c rest ih =>
    intro p a h
    cases hk : k (c :: rest) with
    | some a0 =>
      rw [lazySplit, hk] at h
      injection h with h1
      injection h1 with _ h2
      exact ⟨c :: rest, List.suffix_refl _, h2 ▸ hk⟩
    | none =>
      rw [lazySplit, hk] at h
      cases hr : lazySplit k rest with
      | none => rw [hr] at h; exact absurd h (by simp)
      | some pr =>
        rw [hr] at h
        obtain ⟨t, ht, hkt⟩ := ih pr.1 pr.2 (by rw [hr])
        injection h with h1
        have h2 : pr.2 = a := by
          have := congrArg Prod.snd h1
          simpa using this
        exact ⟨t, ht.trans (List.suffix_cons c rest), h2 ▸ hkt⟩

theorem gwtl_some {α : Type} (k : List Char → Option α) :
    ∀ (l p : List Char) (a : α), gwtl k l = some (p, a) →
      ∃ t, t.IsSuffix l ∧ k t = some a := by
  intro l
  induction l with
  | nil =>
    intro p a h
    rw [gwtl] at h
    exact lazySplit_some k [] p a h
  | cons c rest ih =>
    intro p a h
    rw [gwtl] at h
    by_cases hc : isPySpace c = true
    · rw [if_pos hc] at h
      cases hg : gwtl k rest with
      | some r =>
        rw [hg] at h
        injection h with h1
        obtain ⟨t, ht, hkt⟩ := ih r.1 r.2 (by rw [hg])
        have h2 : r.2 = a := by
          have := congrArg Prod.snd h1
          simpa using this
        exact ⟨t, ht.trans (List.suffix_cons c rest), h2 ▸ hkt⟩
      | none =>
        rw [hg] at h
        exact lazySplit_some k (c :: rest) p a h
    · rw [if_neg hc] at h
      exact lazySplit_some k (c :: rest) p a h

theorem wsDollar_suffix :
    ∀ (l r : List Char), wsDollar l = some r → r.IsSuffix l := by
  intro l
  induction l with
  | nil =>
    intro r h
    rw [wsDollar] at h
    injection h with h1
    exact h1 ▸ List.suffix_refl []
  | cons c rest ih =>
    intro r h
    rw [wsDollar] at h
    by_cases hc : isPySpace c = true
    · rw [if_pos hc] at h
      cases hw : wsDollar rest with
      | some r0 =>
        rw [hw] at h
        injection h with h1
        exact h1 ▸ (ih r0 hw).trans (List.suffix_cons c rest)
      | none =>
        rw [hw] at h
        by_cases hn : c = '\n'
        · rw [if_pos hn] at h
          injection h with h1
          exact h1 ▸ List.suffix_refl _
        · rw [if_neg hn] at h
          exact absurd h (by simp)
    · rw [if_neg hc] at h
      exact absurd h (by simp)

theorem answerCont_props (l : List Char) (c : Char) (rest : List Char)
    (h : answerCont l = some (c, rest)) :
    (c = 'A' ∨ c = 'B' ∨ c = 'C' ∨ c = 'D') ∧
    rest.IsSuffix l ∧ answerTok <:+: l := by
  simp only [answerCont] at h
  split at h
  · rename_i r
    split at h
    · rename_i hpre
      split at h
      · rename_i r3 hr3
        split at h
        · rename_i c5 r5 hr5
          split at h
          · rename_i hg
            split at h
            · rename_i rest0 hws
              have hsufr1 : (skipWs r).IsSuffix ('\n' :: r) :=
                (List.dropWhile_suffix isPySpace).trans (List.suffix_cons '\n' r)
              have hsfx : rest0.IsSuffix ('\n' :: r) := by
                have s1 := wsDollar_suffix r5 rest0 hws
                have s4 : (skipWs r3).IsSuffix r3 := List.dropWhile_suffix isPySpace
                have s7 : (skipWs ((skipWs r).drop 6)).IsSuffix ((skipWs r).drop 6) :=
                  List.dropWhile_suffix isPySpace
                have s8 : ((skipWs r).drop 6).IsSuffix (skipWs r) := List.drop_suffix 6 _
                have s2 : (c5 :: r5).IsSuffix r3 := hr5 ▸ s4
                have s5 : (':' :: r3).IsSuffix (skipWs r) := hr3 ▸ (s7.trans s8)
                exact s1.trans ((List.suffix_cons c5 r5).trans (s2.trans
                  ((List.suffix_cons ':' r3).trans (s5.trans hsufr1))))
              have hinf : answerTok <:+: ('\n' :: r) :=
                ((List.isPrefixOf_iff_prefix.mp hpre).isInfix).trans hsufr1.isInfix
              rw [Option.some.injEq, Prod.mk.injEq] at h
              exact ⟨h.1 ▸ hg, h.2 ▸ hsfx, hinf⟩
            · exact absurd h (by simp)
          · exact absurd h (by simp)
        · exact absurd h (by simp)
      · exact absurd h (by simp)
    · exact absurd h (by simp)
  · exact absurd h (by simp)

end PrashnAi

namespace PrashnAi

theorem matchNum_suffix (rq ad : Bool) :
    ∀ (l : List Char) (p : List Char × List Char),
      matchNum rq ad l = some p → p.2.IsSuffix l := by
  intro l p h
  unfold matchNum at h
  rw [Option.bind_eq_some] at h
  obtain ⟨l2, hq, h⟩ := h
  have hl2 : l2.IsSuffix l := by
    unfold afterQtok at hq
    split at hq
    · rename_i rr
      injection hq with h1
      subst h1
      exact (List.dropWhile_suffix isPySpace).trans (List.suffix_cons 'Q' rr)
    · split at hq
      · exact absurd hq (by simp)
      · injection hq with h1
        subst h1
        exact List.suffix_refl _
  dsimp only [] at h
  split at h
  · exact absurd h (by simp)
  · split at h
    · rename_i r heq
      injection h with h1
      have hr : r.IsSuffix l2 := by
        have s1 : (':' :: r).IsSuffix (l2.dropWhile Char.isDigit) :=
          heq ▸ List.dropWhile_suffix isPySpace
        exact (List.suffix_cons ':' r).trans (s1.trans (List.dropWhile_suffix Char.isDigit))
      have hp2 : p.2 = r := by rw [← h1]
      rw [hp2]
      exact hr.trans hl2
    · rename_i r heq
      split at h
      · injection h with h1
        have hr : r.IsSuffix l2 := by
          have s1 : ('.' :: r).IsSuffix (l2.dropWhile Char.isDigit) :=
            heq ▸ List.dropWhile_suffix isPySpace
          exact (List.suffix_cons '.' r).trans (s1.trans (List.dropWhile_suffix Char.isDigit))
        have hp2 : p.2 = r := by rw [← h1]
        rw [hp2]
        exact hr.trans hl2
      · exact absurd h (by simp)
    · exact absurd h (by simp)

theorem afterMarker_suffix (m : List Char) :
    ∀ (l rest : List Char), afterMarker m l = some rest → rest.IsSuffix l := by
  intro l rest h
  unfold afterMarker at h
  dsimp only [] at h
  split at h
  · rename_i r
    split at h
    · injection h with h1
      subst h1
      exact ((List.drop_suffix _ _).trans (List.dropWhile_suffix isPySpace)).trans
        (List.suffix_cons '\n' r)
    · exact absurd h (by simp)
  · exact absurd h (by simp)

theorem matchBlockAt_props (rq ad : Bool) (s : List Char) (rb : RawBlock) (r : List Char)
    (h : matchBlockAt rq ad s = some (rb, r)) :
    (rb.ansc = 'A' ∨ rb.ansc = 'B' ∨ rb.ansc = 'C' ∨ rb.ansc = 'D') ∧
    r.IsSuffix s ∧ answerTok <:+: s := by
  unfold matchBlockAt at h
  simp only [Option.bind_eq_some] at h
  obtain ⟨p1, h1, p2, h2, p3, h3, p4, h4, p5, h5, p6, h6, hfin⟩ := h
  have t1 : p1.2.IsSuffix s := matchNum_suffix rq ad s p1 h1
  have step : ∀ (m : List Char) (l : List Char) (q : List Char × List Char),
      gwtl (afterMarker m) l = some q → q.2.IsSuffix l := by
    intro m l q hq
    obtain ⟨t, ht, hk⟩ := gwtl_some (afterMarker m) l q.1 q.2 hq
    exact (afterMarker_suffix m t q.2 hk).trans ht
  have t2 := (step _ _ _ h2).trans t1
  have t3 := (step _ _ _ h3).trans t2
  have t4 := (step _ _ _ h4).trans t3
  have t5 := (step _ _ _ h5).trans t4
  obtain ⟨t6, ht6, hk6⟩ := gwtl_some answerCont p5.2 p6.1 p6.2 h6
  obtain ⟨hg, hsfx, hinf⟩ := answerCont_props t6 p6.2.1 p6.2.2 hk6
  rw [Option.some.injEq, Prod.mk.injEq] at hfin
  obtain ⟨hrb, hr⟩ := hfin
  refine ⟨?_, ?_, ?_⟩
  · rw [← hrb]
    exact hg
  · rw [← hr]
    exact ((hsfx.trans ht6).trans t5)
  · exact hinf.trans ((ht6.trans t5).isInfix)

theorem scanAux_tok (rq ad : Bool) (text : List Char) :
    ∀ (f : Nat) (l : List Char) (bb : Bool), l.IsSuffix text →
      ∀ rb ∈ scanAux rq ad f l bb,
        (rb.ansc = 'A' ∨ rb.ansc = 'B' ∨ rb.ansc = 'C' ∨ rb.ansc = 'D') ∧
        answerTok <:+: text := by
  intro f
  induction f with
  | zero =>
    intro l bb _ rb hrb
    rw [scanAux] at hrb
    exact absurd hrb (by simp)
  | succ f ih =>
    intro l bb hsuf rb hrb
    cases l with
    | nil =>
      rw [scanAux] at hrb
      exact absurd hrb (by simp)
    | cons ch rest =>
      have hrs : rest.IsSuffix text := (List.suffix_cons ch rest).trans hsuf
      rw [scanAux] at hrb
      by_cases hb : bb = true
      · rw [if_pos hb] at hrb
        cases hm : matchBlockAt rq ad (ch :: rest) with
        | some br =>
          obtain ⟨b0, r0⟩ := br
          rw [hm] at hrb
          simp only [List.mem_cons] at hrb
          obtain ⟨hg, hsfx, hinf⟩ := matchBlockAt_props rq ad (ch :: rest) b0 r0 hm
          rcases hrb with rfl | hrb
          · exact ⟨hg, hinf.trans hsuf.isInfix⟩
          · exact ih r0 false (hsfx.trans hsuf) rb hrb
        | none =>
          rw [hm] at hrb
          exact ih rest _ hrs rb hrb
      · rw [if_neg hb] at hrb
        exact ih rest _ hrs rb hrb

theorem reSearch_tok (rq ad : Bool) (chunk : List Char) :
    ∀ (f : Nat) (l : List Char) (bb : Bool), l.IsSuffix chunk →
      ∀ rb : RawBlock, reSearch rq ad f l bb = some rb →
        (rb.ansc = 'A' ∨ rb.ansc = 'B' ∨ rb.ansc = 'C' ∨ rb.ansc = 'D') ∧
        answerTok <:+: chunk := by
  intro f
  induction f with
  | zero =>
    intro l bb _ rb hrb
    rw [reSearch] at hrb
    exact absurd hrb (by simp)
  | succ f ih =>
    intro l bb hsuf rb hrb
    cases l with
    | nil =>
      rw [reSearch] at hrb
      exact absurd hrb (by simp)
    | cons ch rest =>
      have hrs : rest.IsSuffix chunk := (List.suffix_cons ch rest).trans hsuf
      rw [reSearch] at hrb
      by_cases hb : bb = true
      · rw [if_pos hb] at hrb
        cases hm : matchBlockAt rq ad (ch :: rest) with
        | some br =>
          obtain ⟨b0, r0⟩ := br
          rw [hm] at hrb
          injection hrb with h1
          obtain ⟨hg, _, hinf⟩ := matchBlockAt_props rq ad (ch :: rest) b0 r0 hm
          subst h1
          exact ⟨hg, hinf.trans hsuf.isInfix⟩
        | none =>
          rw [hm] at hrb
          exact ih rest _ hrs rb hrb
      · rw [if_neg hb] at hrb
        exact ih rest _ hrs rb hrb

theorem splitQ_infix (pred : List Char → Bool) :
    ∀ (f : Nat) (l : List Char) (bb : Bool) (acc ch : List Char),
      ch ∈ splitQ pred f l bb acc → ch <:+: (acc.reverse ++ l) := by
  intro f
  induction f with
  | zero =>
    intro l bb acc ch hch
    rw [splitQ] at hch
    simp only [List.mem_singleton] at hch
    subst hch
    exact List.infix_refl _
  | succ f ih =>
    intro l bb acc ch hch
    cases l with
    | nil =>
      rw [splitQ] at hch
      simp only [List.mem_singleton] at hch
      subst hch
      rw [List.append_nil]
    | cons c rest =>
      rw [splitQ] at hch
      by_cases hc : (bb && pred (c :: rest)) = true
      · rw [if_pos hc] at hch
        rcases List.mem_cons.mp hch with rfl | hch
        · exact (List.prefix_append _ _).isInfix
        · have h1 := ih rest (c = '\n') [c] ch hch
          have h2 : ch <:+: (c :: rest) := by simpa using h1
          exact h2.trans (List.suffix_append _ _).isInfix
      · rw [if_neg hc] at hch
        have h1 := ih rest (c = '\n') (c :: acc) ch hch
        have h2 : (c :: acc).reverse ++ rest = acc.reverse ++ (c :: rest) := by simp
        rw [h2] at h1
        exact h1

theorem rawBlocks_props (rq ad : Bool) (text : List Char) (rb : RawBlock)
    (h : rb ∈ rawBlocks rq ad text) :
    (rb.ansc = 'A' ∨ rb.ansc = 'B' ∨ rb.ansc = 'C' ∨ rb.ansc = 'D') ∧
    answerTok <:+: text := by
  unfold rawBlocks at h
  dsimp only [] at h
  split at h
  · rw [List.mem_filterMap] at h
    obtain ⟨ch, hch, hsr⟩ := h
    have hinfix := splitQ_infix (fun l => (matchNum rq ad l).isSome)
      (text.length + 1) text true [] ch hch
    have hinfix2 : ch <:+: text := by simpa using hinfix
    obtain ⟨hg, htok⟩ := reSearch_tok rq ad ch (ch.length + 1) ch true
      (List.suffix_refl ch) rb hsr
    exact ⟨hg, htok.trans hinfix2⟩
  · unfold finditerBlocks at h
    exact scanAux_tok rq ad text (text.length + 1) text true (List.suffix_refl text) rb h

theorem hasAnswerTok_iff (text : List Char) :
    hasAnswerTok text = true ↔ answerTok <:+: text := by
  unfold hasAnswerTok
  rw [List.any_eq_true]
  constructor
  · rintro ⟨t, ht, hp⟩
    exact List.infix_iff_prefix_suffix.mpr
      ⟨t, List.isPrefixOf_iff_prefix.mp hp, (List.mem_tails _ _).mp ht⟩
  · intro hinf
    obtain ⟨t, hpre, hsuf⟩ := List.infix_iff_prefix_suffix.mp hinf
    exact ⟨t, (List.mem_tails _ _).mpr hsuf, List.isPrefixOf_iff_prefix.mpr hpre⟩

theorem rawBlocks_empty_of_no_tok (rq ad : Bool) (text : List Char)
    (h : hasAnswerTok text = false) : rawBlocks rq ad text = [] := by
  cases hr : rawBlocks rq ad text with
  | nil => rfl
  | cons rb rest =>
    have hp := rawBlocks_props rq ad text rb (by rw [hr]; exact List.mem_cons_self _ _)
    exact absurd ((hasAnswerTok_iff text).mpr hp.2) (by simp [h])

theorem parse_mem_raw_app (text : List Char) (d : Bool) (b : Block)
    (h : b ∈ app.parse_quiz_text text d) :
    ∃ rb ∈ rawBlocks true false text, b = toBlock rb := by
  unfold app.parse_quiz_text at h
  simp only [sortBlocks, List.mem_insertionSort] at h
  have h2 : b ∈ (rawBlocks true false text).map toBlock := by
    cases d
    · simpa using h
    · exact (dedupeGo_sublist _ []).subset (by simpa [dedupeBlocks] using h)
  rw [List.mem_map] at h2
  obtain ⟨rb, hrb, hb⟩ := h2
  exact ⟨rb, hrb, hb.symm⟩

theorem parse_mem_raw_app_simple (text : List Char) (d : Bool) (m : Nat) (b : Block)
    (h : b ∈ app_simple.parse_quiz_text text d m) :
    ∃ rb ∈ rawBlocks false true text, b = toBlock rb := by
  have h2 : b ∈ (rawBlocks false true text).map toBlock := by
    cases d
    · unfold app_simple.parse_quiz_text at h
      simp only [Bool.false_eq_true, if_false] at h
      have h1 : b ∈ sortBlocks ((rawBlocks false true text).map toBlock) := by
        split at h
        · exact List.mem_of_mem_take h
        · exact h
      simpa only [sortBlocks, List.mem_insertionSort] using h1
    · unfold app_simple.parse_quiz_text at h
      simp only [if_true] at h
      have h1 : b ∈ sortBlocks (dedupeBlocks ((rawBlocks false true text).map toBlock)) := by
        split at h
        · exact List.mem_of_mem_take h
        · exact h
      exact (dedupeGo_sublist _ []).subset
        (by simpa only [sortBlocks, List.mem_insertionSort, dedupeBlocks] using h1)
  rw [List.mem_map] at h2
  obtain ⟨rb, hrb, hb⟩ := h2
  exact ⟨rb, hrb, hb.symm⟩

/-- C5 (amended): every record emitted by either parser carries an answer
label among A, B, C, D (already uppercase), and a text without any
`Answer` token yields no records at all (blocks not terminated by a
valid answer line produce nothing); parsing is a total function, so it
never raises.  The original claim's "stem non-empty after
normalization" is dropped: see the counterexample, where a stem
consisting only of a variant tag normalizes to the empty string. -/
theorem c5_parser_invariants_amended (text : List Char) (d : Bool) (m : Nat) :
    (∀ b ∈ app.parse_quiz_text text d,
        b.answer = ['A'] ∨ b.answer = ['B'] ∨ b.answer = ['C'] ∨ b.answer = ['D']) ∧
    (∀ b ∈ app_simple.parse_quiz_text text d m,
        b.answer = ['A'] ∨ b.answer = ['B'] ∨ b.answer = ['C'] ∨ b.answer = ['D']) ∧
    (hasAnswerTok text = false → app.parse_quiz_text text d = []) ∧
    (hasAnswerTok text = false → app_simple.parse_quiz_text text d m = []) := by
  refine ⟨?_, ?_, ?_, ?_⟩
  · intro b hb
    obtain ⟨rb, hrb, rfl⟩ := parse_mem_raw_app text d b hb
    have hg := (rawBlocks_props true false text rb hrb).1
    rcases hg with h | h | h | h <;> simp only [toBlock, h] <;> decide
  · intro b hb
    obtain ⟨rb, hrb, rfl⟩ := parse_mem_raw_app_simple text d m b hb
    have hg := (rawBlocks_props false true text rb hrb).1
    rcases hg with h | h | h | h <;> simp only [toBlock, h] <;> decide
  · intro htok
    unfold app.parse_quiz_text
    rw [rawBlocks_empty_of_no_tok true false text htok]
    cases d <;> simp [dedupeBlocks, dedupeGo, sortBlocks]
  · intro htok
    unfold app_simple.parse_quiz_text
    rw [rawBlocks_empty_of_no_tok false true text htok]
    cases d <;> simp [dedupeBlocks, dedupeGo, sortBlocks]

/-- C5 witness: an Answer-less text parses to nothing in both variants. -/
theorem c5_witness :
    hasAnswerTok ['x'] = false ∧
    app.parse_quiz_text ['x'] true = [] ∧
    app_simple.parse_quiz_text ['x'] true 25 = [] := by
  have h := c5_parser_invariants_amended ['x'] true 25
  exact ⟨by decide, h.2.2.1 (by decide), h.2.2.2 (by decide)⟩

/-- C5 counterexample: a block whose stem is nothing but a variant tag is
accepted by the parser, and its normalized stem is empty — refuting the
"stem non-empty after normalization" invariant. -/
theorem c5_counterexample_empty_stem :
    ∃ b ∈ app.parse_quiz_text
      ('Q' :: '1' :: ':' :: ' ' :: '(' :: 'v' :: 'a' :: 'r' :: 'i' :: 'a' :: 'n' :: 't' :: ' ' :: '1' :: ')' :: '\n' :: 'A' :: ')' :: ' ' :: 'a' :: '\n' :: 'B' :: ')' :: ' ' :: 'b' :: '\n' :: 'C' :: ')' :: ' ' :: 'c' :: '\n' :: 'D' :: ')' :: ' ' :: 'd' :: '\n' :: 'A' :: 'n' :: 's' :: 'w' :: 'e' :: 'r' :: ':' :: ' ' :: ['B']) true, b.stem = [] := by
  decide

end PrashnAi
